import Mathlib

/-!
Shallow embedding of the query-resolution pipeline of `services/api/main.py`
(product-registry search service): filter clause building, attempt planning,
vector-search attempt execution with fetch-size doubling, lexical token
scoring/ranking, the lexical fallback loop, and the plain `/reestr` endpoint's
request validation and query building.

Python strings are modelled as `List Char` (named `Str`); the Python string
primitives used by the service (strip, split, replace, lower, containment)
are re-implemented character-wise below. SQL clause texts and attempt labels
are kept as Lean `String`s. Vector distances (floats in the source, used only
for ordering) are modelled as `Int`. Database rows are modelled by the fields
the handler reads (`id`, `productname`, `distance`); the row store and the
per-token fallback store are opaque functions, with store failure modelled by
an error result.
-/

namespace Gisp

/-- Python strings, modelled as their character lists. -/
abbrev Str := List Char

/-- Python truthiness of an optional string value (`None` and `""` are falsy). -/
def pyTruthy (v : Option Str) : Bool := !(v.getD []).isEmpty

/-- Python `str.strip()`: remove leading and trailing whitespace. -/
def pyStrip (s : Str) : Str :=
  ((s.dropWhile Char.isWhitespace).reverse.dropWhile Char.isWhitespace).reverse

/-- Python `str.strip(ch)` for a single character: remove leading and trailing
copies of `ch`. -/
def pyStripChar (ch : Char) (s : Str) : Str :=
  ((s.dropWhile (· = ch)).reverse.dropWhile (· = ch)).reverse

/-- Python `str.split(sep)` for a one-character separator, and `re.split` over a
character class: split at every character satisfying `p`, keeping empty parts
(`"".split(sep) = [""]`). -/
def splitChar (p : Char → Bool) : Str → List Str
  | [] => [[]]
  | c :: rest =>
    match splitChar p rest with
    | [] => [[]]
    | hd :: tl => if p c then [] :: hd :: tl else (c :: hd) :: tl

/-- The `[v.strip() for v in value.split(sep) if v.strip()]` idiom of
`main.py`: split on a one-character separator, strip each part, drop empties. -/
def splitStrip (sep : Char) (v : Str) : List Str :=
  ((splitChar (· = sep) v).map pyStrip).filter (· ≠ [])

/-- The SQL `ILIKE` parameter `f"%{v}%"` of `main.py`. -/
def pct (v : Str) : Str := '%' :: (v ++ ['%'])

/-- `normalize_regnumber` (`main.py` lines 58-64): `None`/empty stays `None`;
otherwise strip whitespace, then surrounding double quotes, then whitespace
again, and replace every `/` by `\`. -/
def normalize_regnumber : Option Str → Option Str
  | none => none
  | some val =>
    if val = [] then none
    else some ((pyStrip (pyStripChar '"' (pyStrip val))).map
      (fun c => if c = '/' then '\\' else c))

/-- `split_terms` (`main.py` lines 66-69): `re.split(r"[$^]", value)`, strip
each part, drop empty parts. Note the regular expression splits only on `$`
and `^`; a space is not a delimiter. -/
def split_terms (value : Str) : List Str :=
  ((splitChar (fun c => c = '$' || c = '^') value).map pyStrip).filter (· ≠ [])

/-- Claim-side variant of `split_terms`, following the specification's words
("a `$`-or-space-delimited sequence of terms"): splits on `$`, `^` and space.
Used only to compare the specified behaviour with the implemented one. -/
def split_terms_spaceSpec (value : Str) : List Str :=
  ((splitChar (fun c => c = '$' || c = '^' || c = ' ') value).map pyStrip).filter (· ≠ [])

/-- The universal `code` block of `build_filter_clauses` (`main.py` 83-90):
`|`-separated alternatives, each matching tax id exactly OR classification
code as substring; OR-combined into one clause, guarded by non-emptiness of
the alternative list. -/
def codeClauses (code : Option Str) : List String × List Str :=
  match code with
  | none => ([], [])
  | some c =>
    if c = [] then ([], [])
    else
      let vals := splitStrip '|' c
      if vals = [] then ([], [])
      else
        (["(" ++ String.intercalate " OR "
            (vals.map fun _ => "(r.inn = %s OR r.tnved ILIKE %s)") ++ ")"],
         (vals.map fun v => [v, pct v]).flatten)

/-- The `inn` block of `build_filter_clauses` (`main.py` 92-107): `|` splits
into OR-combined equalities, `,` into AND-combined equalities, else a single
equality. -/
def innClauses (inn : Option Str) : List String × List Str :=
  match inn with
  | none => ([], [])
  | some v =>
    if v = [] then ([], [])
    else if v.contains '|' then
      let vals := splitStrip '|' v
      (["(" ++ String.intercalate " OR " (vals.map fun _ => "r.inn = %s") ++ ")"], vals)
    else if v.contains ',' then
      let vals := splitStrip ',' v
      (vals.map fun _ => "r.inn = %s", vals)
    else (["r.inn = %s"], [v])

/-- The `tnved` block of `build_filter_clauses` (`main.py` 109-124): same
OR/AND splitting as `inn` but with case-insensitive substring matches. -/
def tnvedClauses (tnved : Option Str) : List String × List Str :=
  match tnved with
  | none => ([], [])
  | some v =>
    if v = [] then ([], [])
    else if v.contains '|' then
      let vals := splitStrip '|' v
      (["(" ++ String.intercalate " OR " (vals.map fun _ => "r.tnved ILIKE %s") ++ ")"],
       vals.map pct)
    else if v.contains ',' then
      let vals := splitStrip ',' v
      (vals.map fun _ => "r.tnved ILIKE %s", vals.map pct)
    else (["r.tnved ILIKE %s"], [pct v])

/-- The `okpd2` block of `build_filter_clauses` (`main.py` 126-128). -/
def okpd2Clauses (okpd2 : Option Str) : List String × List Str :=
  match okpd2 with
  | none => ([], [])
  | some v => if v = [] then ([], []) else (["r.okpd2 ILIKE %s"], [pct v])

/-- The `regnumber` block of `build_filter_clauses` (`main.py` 130-132):
exact equality against both registration-number columns, the same value bound
twice. -/
def regnumberClauses (regnumber : Option Str) : List String × List Str :=
  match regnumber with
  | none => ([], [])
  | some v =>
    if v = [] then ([], [])
    else (["(r.regnumber = %s OR r.registernumber = %s)"], [v, v])

/-- The `nameoforg` block of `build_filter_clauses` (`main.py` 134-146): if the
value contains `^`, one OR-combined clause over the split terms; otherwise one
AND-required substring clause per term. -/
def nameoforgClauses (nameoforg : Option Str) : List String × List Str :=
  match nameoforg with
  | none => ([], [])
  | some v =>
    if v = [] then ([], [])
    else if v.contains '^' then
      (["(" ++ String.intercalate " OR "
          ((split_terms v).map fun _ => "r.nameoforg ILIKE %s") ++ ")"],
       (split_terms v).map pct)
    else ((split_terms v).map fun _ => "r.nameoforg ILIKE %s", (split_terms v).map pct)

/-- `build_filter_clauses` (`main.py` 71-148): the clause/parameter pairs of
the six filters, concatenated in source order (code, inn, tnved, okpd2,
regnumber, nameoforg). -/
def build_filter_clauses (inn tnved okpd2 regnumber nameoforg code : Option Str) :
    List String × List Str :=
  let ps := [codeClauses code, innClauses inn, tnvedClauses tnved,
             okpd2Clauses okpd2, regnumberClauses regnumber, nameoforgClauses nameoforg]
  ((ps.map Prod.fst).flatten, (ps.map Prod.snd).flatten)

/-! ### Attempt planner (`get_reestr_semantic`, `main.py` 221-270) -/

/-- An entry of the planner's `attempts` list (`main.py` 242-249). -/
structure Attempt where
  label : String
  tnved : Option Str
  code : Option Str
  removed_filters : List String
deriving DecidableEq, Repr

/-- The deduplication key of `_add_attempt` (`main.py` 238):
`(tnved_value or "", code_value or "")`. -/
def attemptKey (t c : Option Str) : Str × Str := (t.getD [], c.getD [])

/-- The planner's mutable state: the `attempts` list and the `attempts_seen`
key set (kept as a list; only membership is ever queried). -/
structure PlanState where
  attempts : List Attempt
  seen : List (Str × Str)
deriving DecidableEq, Repr

/-- `_add_attempt` (`main.py` 232-249): skip if the `(tnved, code)` key was
seen, else record the key and append the attempt. -/
def addAttempt (st : PlanState) (label : String) (t c : Option Str)
    (removed : List String) : PlanState :=
  if attemptKey t c ∈ st.seen then st
  else ⟨st.attempts ++ [⟨label, t, c, removed⟩], st.seen ++ [attemptKey t c]⟩

/-- `_is_simple_value` (`main.py` 223-224): non-empty and free of `|` and `,`. -/
def _is_simple_value : Option Str → Bool
  | none => false
  | some v => !v.isEmpty && !v.contains '|' && !v.contains ','

/-- `_strip_digits` (`main.py` 226-227): `re.sub(r"\D", "", value or "")`,
i.e. keep only digit characters. -/
def _strip_digits : Option Str → Str
  | none => []
  | some v => v.filter Char.isDigit

/-- The initial fetch size of the semantic handler (`main.py` 221):
`max(limit * 2, offset + limit)`. -/
def fetchLimit (limit offset : Nat) : Nat := max (limit * 2) (offset + limit)

/-- The length ladder `(10, 8, 6, 4)` used by both prefix-attempt loops. -/
def prefixLengths : List Nat := [10, 8, 6, 4]

/-- The digit extraction guarded by the simple-value test, used for both the
classification value (`main.py` 253) and the universal code (`main.py` 261):
the value's digits when it is a single non-OR/AND value, else empty. -/
def simpleDigitsOf (v : Option Str) : Str :=
  if _is_simple_value v then _strip_digits v else []

/-- The classification-prefix loop of the planner (`main.py` 253-259): when
the classification value yields digits, add one ancestor-prefix attempt per
admissible length. -/
def planPrefixStage (tnved code : Option Str) (st : PlanState) : PlanState :=
  let tnved_digits := simpleDigitsOf tnved
  if tnved_digits ≠ [] then
    prefixLengths.foldl
      (fun s len =>
        if len < tnved_digits.length ∧ 4 ≤ len then
          addAttempt s ("tnved_prefix_" ++ toString len)
            (some (tnved_digits.take len)) code []
        else s)
      st
  else st

/-- The code-as-classification loop of the planner (`main.py` 261-267): when
the classification value yields no digits and the universal code does, add
one attempt per admissible length re-interpreting the code digits as the
classification filter, dropping the `code` filter. -/
def planCodeStage (tnved code : Option Str) (st : PlanState) : PlanState :=
  let tnved_digits := simpleDigitsOf tnved
  let code_digits := simpleDigitsOf code
  if tnved_digits = [] ∧ code_digits ≠ [] then
    prefixLengths.foldl
      (fun s len =>
        if code_digits.length ≥ len ∧ 4 ≤ len then
          addAttempt s ("code_as_tnved_" ++ toString len)
            (some (code_digits.take len)) none
            (if pyTruthy code then ["code"] else [])
        else s)
      st
  else st

/-- The classification-removed step of the planner (`main.py` 269-270). -/
def planRemoveStage (tnved code : Option Str) (st : PlanState) : PlanState :=
  if simpleDigitsOf tnved ≠ [] ∨ pyTruthy tnved then
    addAttempt st "tnved_removed" none code ["tnved"]
  else st

/-- The attempt-planning block of `get_reestr_semantic` (`main.py` 251-270):
original attempt, classification-prefix attempts, code-as-classification
attempts, and the classification-removed attempt, with `_add_attempt`
deduplication throughout. -/
def planAttempts (tnved code : Option Str) : List Attempt :=
  (planRemoveStage tnved code (planCodeStage tnved code (planPrefixStage tnved code
    (addAttempt ⟨[], []⟩ "original" tnved code [])))).attempts

/-- The classification-prefix segment of the planned attempt list: the
ancestor-prefix attempts of `main.py` 254-259, one per admissible length,
in the `(10, 8, 6, 4)` order. -/
def tnvedPrefixSeg (tnved code : Option Str) : List Attempt :=
  let td := simpleDigitsOf tnved
  if td ≠ [] then
    (prefixLengths.filter fun len => decide (len < td.length ∧ 4 ≤ len)).map
      fun len => ⟨"tnved_prefix_" ++ toString len, some (td.take len), code, []⟩
  else []

/-- The code-as-classification segment of the planned attempt list
(`main.py` 262-267), one attempt per admissible length, each dropping the
`code` filter. -/
def codeAsTnvedSeg (tnved code : Option Str) : List Attempt :=
  let cd := simpleDigitsOf code
  if simpleDigitsOf tnved = [] ∧ cd ≠ [] then
    (prefixLengths.filter fun len => decide (cd.length ≥ len ∧ 4 ≤ len)).map
      fun len => ⟨"code_as_tnved_" ++ toString len, some (cd.take len), none, ["code"]⟩
  else []

/-- The classification-removed segment of the planned attempt list. -/
def tnvedRemovedSeg (tnved code : Option Str) : List Attempt :=
  if pyTruthy tnved then [⟨"tnved_removed", none, code, ["tnved"]⟩] else []

/-- The deduplication keys recorded by the classification-prefix loop. -/
def tnvedPrefixKeys (tnved code : Option Str) : List (Str × Str) :=
  let td := simpleDigitsOf tnved
  if td ≠ [] then
    (prefixLengths.filter fun len => decide (len < td.length ∧ 4 ≤ len)).map
      fun len => attemptKey (some (td.take len)) code
  else []

/-- The deduplication keys recorded by the code-as-classification loop. -/
def codeAsTnvedKeys (tnved code : Option Str) : List (Str × Str) :=
  let cd := simpleDigitsOf code
  if simpleDigitsOf tnved = [] ∧ cd ≠ [] then
    (prefixLengths.filter fun len => decide (cd.length ≥ len ∧ 4 ≤ len)).map
      fun len => attemptKey (some (cd.take len)) none
  else []

/-! ### Attempt execution (`get_reestr_semantic`, `main.py` 290-374)

The row store is an opaque function from (filter clauses, bound parameters,
fetch size) to the returned row list together with the query's elapsed time
(an opaque number, passed through into the diagnostics). -/

/-- The row store seen by the attempt loop: clauses, parameters and the
current fetch size determine the returned rows and the elapsed time. -/
abbrev Store (α : Type) := List String → List Str → Nat → List α × Int

/-- One entry of `attempt_history` (`main.py` 352-364). `removed_filters` is
stored unconditionally here; the source adds the key only when non-empty, so
the empty list encodes an absent key. -/
structure HistoryEntry where
  index : Nat
  label : String
  tnved : Option Str
  code : Option Str
  removed_filters : List String
  rows : Nat
  limit_used : Nat
  elapsed : Int
deriving DecidableEq, Repr

/-- The inner `while True` fetch loop of one attempt (`main.py` 329-351),
written with explicit fuel so that it is structurally recursive: query at the
current fetch size; stop when rows came back or the size has reached the cap
800; otherwise double the size, capped at 800. Fuel 11 is enough for every
start size ≥ 1 (the size at least doubles each round until it reaches 800),
which `fetchGo_eq_ladderEval` below makes precise. Returns (rows, fetch size
used, elapsed time of the last query). -/
def fetchGo {α : Type} [DecidableEq α] (store : Nat → List α × Int) :
    Nat → Nat → List α × Nat × Int
  | 0, current => ((store current).1, current, (store current).2)
  | fuel + 1, current =>
    let q := store current
    if q.1 ≠ [] ∨ 800 ≤ current then (q.1, current, q.2)
    else fetchGo store fuel (min (current * 2) 800)

/-- The fetch loop with its fuel fixed. -/
def fetchLoop {α : Type} [DecidableEq α] (store : Nat → List α × Int)
    (current : Nat) : List α × Nat × Int :=
  fetchGo store 11 current

/-- The schedule of fetch sizes the loop is prepared to try from a given
start: the start size, then repeated doubling capped at 800, ending at the
first size ≥ 800 (the start size alone if it is 0, where the source loop
would not advance). -/
def ladder (c : Nat) : List Nat :=
  if h : 800 ≤ c ∨ c = 0 then [c]
  else c :: ladder (min (c * 2) 800)
termination_by 800 - c
decreasing_by push_neg at h; omega

/-- Declarative description of the fetch loop: the result comes from the
first size in the `ladder` schedule at which the store returns rows, or from
the schedule's last size (≥ 800) when no size yields rows. -/
def ladderEval {α : Type} [DecidableEq α] (store : Nat → List α × Int)
    (c : Nat) : List α × Nat × Int :=
  match (ladder c).find? (fun s => decide ((store s).1 ≠ [])) with
  | some u => ((store u).1, u, (store u).2)
  | none =>
    let L := (ladder c).getLastD c
    ((store L).1, L, (store L).2)

/-- The filters of the semantic request that stay fixed across attempts
(`main.py` 313-320): `inn`, `okpd2`, the normalized `regnumber`, `nameoforg`. -/
structure OtherFilters where
  inn : Option Str
  okpd2 : Option Str
  regnumber : Option Str
  nameoforg : Option Str
deriving DecidableEq, Repr

/-- The clauses and parameters of one attempt (`main.py` 313-320):
`build_filter_clauses` with the attempt's `tnved` and `code` and the fixed
other filters. -/
def attemptClauses (f : OtherFilters) (a : Attempt) : List String × List Str :=
  build_filter_clauses f.inn a.tnved f.okpd2 f.regnumber f.nameoforg a.code

/-- The full execution of one attempt: its clauses, fed to the fetch loop. -/
def execAttempt {α : Type} [DecidableEq α] (store : Store α) (f : OtherFilters)
    (fl : Nat) (a : Attempt) : List α × Nat × Int :=
  let cp := attemptClauses f a
  fetchLoop (fun c => store cp.1 cp.2 c) fl

/-- The history entry recorded for one executed attempt (`main.py` 352-364). -/
def entryFor {α : Type} [DecidableEq α] (store : Store α) (f : OtherFilters)
    (fl : Nat) (i : Nat) (a : Attempt) : HistoryEntry :=
  let r := execAttempt store f fl a
  ⟨i, a.label, a.tnved, a.code, a.removed_filters, r.1.length, r.2.1, r.2.2⟩

/-- The history entries of a run of consecutive attempts starting at a given
index. -/
def historyFrom {α : Type} [DecidableEq α] (store : Store α) (f : OtherFilters)
    (fl : Nat) : Nat → List Attempt → List HistoryEntry
  | _, [] => []
  | i, a :: rest => entryFor store f fl i a :: historyFrom store f fl (i + 1) rest

/-- The outcome of the attempt loop (`main.py` 290-374): the winning rows,
the retained clause set and parameter values, the winning attempt's index
(0 when no attempt won), and the attempt history. -/
structure RunResult (α : Type) where
  final_rows : List α
  clauses : List String
  filter_values : List Str
  final_attempt_index : Nat
  history : List HistoryEntry
deriving DecidableEq, Repr

/-- The `for idx, attempt in enumerate(attempts)` loop (`main.py` 310-374):
build each attempt's clauses, run the fetch loop, record a history entry;
stop at the first attempt with rows; the `for...else` branch keeps the last
attempt's clauses and parameters with an empty row set. -/
def runGo {α : Type} [DecidableEq α] (store : Store α) (f : OtherFilters) (fl : Nat) :
    List Attempt → Nat → List HistoryEntry → List String → List Str → RunResult α
  | [], _, hist, lastCl, lastPar => ⟨[], lastCl, lastPar, 0, hist⟩
  | a :: rest, idx, hist, _, _ =>
    let cp := attemptClauses f a
    let r := fetchLoop (fun c => store cp.1 cp.2 c) fl
    if r.1 ≠ [] then
      ⟨r.1, cp.1, cp.2, idx,
       hist ++ [⟨idx, a.label, a.tnved, a.code, a.removed_filters, r.1.length, r.2.1, r.2.2⟩]⟩
    else
      runGo store f fl rest (idx + 1)
        (hist ++ [⟨idx, a.label, a.tnved, a.code, a.removed_filters, r.1.length, r.2.1, r.2.2⟩])
        cp.1 cp.2

/-- The attempt loop entry point, with the initial fetch size
`fetchLimit limit offset` of `main.py` 221. -/
def runAttempts {α : Type} [DecidableEq α] (store : Store α) (f : OtherFilters)
    (attempts : List Attempt) (limit offset : Nat) : RunResult α :=
  runGo store f (fetchLimit limit offset) attempts 0 [] [] []

/-- The clauses and parameters the loop retains when every attempt is
exhausted: those of the last attempt (the given defaults when there is no
attempt at all; the planner always yields at least one). -/
def lastAttemptClauses (f : OtherFilters) (attempts : List Attempt)
    (lc : List String) (lp : List Str) : List String × List Str :=
  match attempts.getLast? with
  | none => (lc, lp)
  | some a => attemptClauses f a

/-! ### Scoring, candidate pool and ranking (`main.py` 383-544) -/

/-- A database row as the ranking phase reads it: row identifier, product
name, vector distance. -/
structure Row where
  id : Nat
  productname : Str
  distance : Int
deriving DecidableEq, Repr

/-- A row decorated by `enrich_row` (`main.py` 443-467). `primary_match` is
the 0/1 integer the source stores. -/
structure Scored where
  id : Nat
  productname : Str
  distance : Int
  token_matches : Nat
  token_matches_original : Nat
  token_matches_synonyms : Nat
  primary_match : Nat
deriving DecidableEq, Repr

/-- Python `str.lower()` restricted to the character classes the service's
token pattern admits: ASCII Latin letters and Cyrillic letters (`А`-`Я` is
U+0410-U+042F mapping to U+0430-U+044F, `Ё` is U+0401 mapping to U+0451);
other characters are unchanged. -/
def lowerChar (c : Char) : Char :=
  if 'A' ≤ c ∧ c ≤ 'Z' then Char.ofNat (c.toNat + 32)
  else if 0x410 ≤ c.toNat ∧ c.toNat ≤ 0x42F then Char.ofNat (c.toNat + 0x20)
  else if c.toNat = 0x401 then Char.ofNat 0x451
  else c

/-- Lower-casing of a whole string. -/
def lowerStr (s : Str) : Str := s.map lowerChar

/-- `sum(1 for token in ts if token and token in product)`: the number of
non-empty terms of `ts` occurring as substrings of `product`. -/
def substrCount (product : Str) (ts : List Str) : Nat :=
  (ts.filter fun t => decide (t ≠ [] ∧ t <:+: product)).length

/-- The token context computed from the query text and the synonym data
(`main.py` 389-439), taken as given by the ranking phase: the deduplicated
query tokens, the synonym terms, the primary token (`None` or possibly empty,
mirroring Python truthiness), and the primary-token synonym terms. -/
structure TokenCtx where
  tokens : List Str
  synonym_terms : List Str
  primary_token : Option Str
  primary_synonym_terms : List Str
deriving DecidableEq, Repr

/-- `enrich_row` (`main.py` 443-467): lower-case the product name, count
original-token and synonym-term substring matches, and compute the
primary-match flag (primary token or a primary synonym term occurs in the
product name; without a truthy primary token, any match counts). -/
def enrich_row (ctx : TokenCtx) (r : Row) : Scored :=
  let product := lowerStr r.productname
  let matches_base := if ctx.tokens ≠ [] then substrCount product ctx.tokens else 0
  let matches_syn :=
    if ctx.synonym_terms ≠ [] then substrCount product ctx.synonym_terms else 0
  let matchCount := matches_base + matches_syn
  let primary_match : Bool :=
    match ctx.primary_token with
    | some p =>
      if p ≠ [] then
        decide (p <:+: product ∨ ∃ t ∈ ctx.primary_synonym_terms, t <:+: product)
      else decide (0 < matchCount)
    | none => decide (0 < matchCount)
  ⟨r.id, r.productname, r.distance, matchCount, matches_base, matches_syn,
   if primary_match then 1 else 0⟩

/-- Insertion into the `rows_by_id` dict (`main.py` 441, 467): overwrite in
place if the id is present (Python dicts keep the original position), else
append. -/
def upsertById (m : List Scored) (r : Scored) : List Scored :=
  if m.any (fun x => x.id = r.id) then m.map (fun x => if x.id = r.id then r else x)
  else m ++ [r]

/-- Enriching and deduplicating the winning attempt's rows (`main.py`
469-470): every row goes through `enrich_row` into `rows_by_id`. -/
def dedupRows (ctx : TokenCtx) (rows : List Row) : List Scored :=
  rows.foldl (fun m r => upsertById m (enrich_row ctx r)) []

/-- `filtered_rows` (`main.py` 472-476): the deduplicated rows with a
positive token-match count and a set primary-match flag. -/
def filteredOf (pool : List Scored) : List Scored :=
  pool.filter fun r => decide (0 < r.token_matches ∧ 0 < r.primary_match)

/-- `filtered_count` (`main.py` 477-479): the filtered set's size when it is
non-empty, else `None`. -/
def filtered_countOf (pool : List Scored) : Option Nat :=
  if filteredOf pool ≠ [] then some (filteredOf pool).length else none

/-- The candidate pool (`main.py` 478-482): the filtered rows when non-empty,
else all deduplicated rows. -/
def candidateOf (pool : List Scored) : List Scored :=
  if filteredOf pool ≠ [] then filteredOf pool else pool

/-- The alphabetic-token test of the fallback loop (`main.py` 487-489):
`re.search(r"[A-Za-zА-Яа-яЁё]", tok)`. -/
def isLetterChar (c : Char) : Bool :=
  ('A' ≤ c ∧ c ≤ 'Z') ∨ ('a' ≤ c ∧ c ≤ 'z') ∨
    (0x410 ≤ c.toNat ∧ c.toNat ≤ 0x44F) ∨ c.toNat = 0x401 ∨ c.toNat = 0x451

/-- A fallible result, mirroring a Python call that may raise. -/
inductive Res (α : Type) where
  | error (e : String)
  | ok (v : α)
deriving DecidableEq, Repr

/-- The per-token store of the lexical fallback loop (`main.py` 504-520): the
substring query for one token either raises or returns rows (the other query
ingredients — the winning attempt's clauses and parameters, the embedding,
the row cap — are fixed inside the handler, so they are part of the opaque
function). -/
abbrev TokStore := Str → Res (List Row)

/-- The state the fallback loop threads: `rows_by_id`, `candidate_rows`, and
the `fallback_used` flag (`main.py` 484-531). -/
structure FbState where
  byId : List Scored
  cand : List Scored
  fallback_used : Bool
deriving DecidableEq, Repr

/-- Merging one token's fallback rows (`main.py` 524-529): skip ids already
in `rows_by_id`; otherwise enrich (which inserts into `rows_by_id`) and
append to the candidate pool. -/
def mergeRows (ctx : TokenCtx) (frs : List Row) (st : FbState) : FbState :=
  frs.foldl
    (fun st fr =>
      if st.byId.any (fun x => x.id = fr.id) then st
      else
        let sc := enrich_row ctx fr
        ⟨upsertById st.byId sc, st.cand ++ [sc], st.fallback_used⟩)
    st

/-- The `for tok in token_candidates` loop (`main.py` 500-531): query the
store for each token in order; an empty result moves on to the next token; a
non-empty result sets `fallback_used`, merges new rows, and stops early once
the pool reaches the fetch target. The query is not guarded by any
`try/except`, so a store error ends the loop (and the request) immediately. -/
def lexicalFallback (ctx : TokenCtx) (store : TokStore) (remaining : Nat) :
    List Str → FbState → Res FbState
  | [], st => .ok st
  | tok :: rest, st =>
    match store tok with
    | .error e => .error e
    | .ok fallback_rows =>
      if fallback_rows = [] then lexicalFallback ctx store remaining rest st
      else
        let st' := mergeRows ctx fallback_rows ⟨st.byId, st.cand, true⟩
        if remaining ≤ st'.cand.length then .ok st'
        else lexicalFallback ctx store remaining rest st'

/-- The final sort key relation (`main.py` 533-539): Python sorts by
`(-token_matches, distance)`, so a row precedes another when it has more
token matches, or equally many and a distance no larger. -/
def rankRel (a b : Scored) : Prop :=
  b.token_matches < a.token_matches ∨
    (a.token_matches = b.token_matches ∧ a.distance ≤ b.distance)

instance : DecidableRel rankRel := fun a b => by
  unfold rankRel; infer_instance

instance : IsTotal Scored rankRel := by
  constructor
  intro a b
  unfold rankRel
  omega

instance : IsTrans Scored rankRel := by
  constructor
  intro a b c hab hbc
  unfold rankRel at *
  omega

/-- The distance-only sort relation of the empty-pool branch (`main.py`
540-543). -/
def distRel (a b : Scored) : Prop := a.distance ≤ b.distance

instance : DecidableRel distRel := fun a b => by
  unfold distRel; infer_instance

instance : IsTotal Scored distRel := by
  constructor
  intro a b
  unfold distRel
  omega

instance : IsTrans Scored distRel := by
  constructor
  intro a b c hab hbc
  unfold distRel at *
  omega

/-- The ranking phase of the semantic handler downstream of the winning
attempt (`main.py` 441-544): enrich and deduplicate the attempt's rows, pick
the candidate pool, run the lexical fallback loop when the pool is short and
tokens exist, then sort by `(-token_matches, distance)` (or by distance alone
when the pool is empty) and truncate to `limit`. A store error in the
fallback loop aborts the phase. -/
def semanticRank (ctx : TokenCtx) (store : TokStore) (rows : List Row)
    (limit fetch_limit : Nat) : Res (List Scored) :=
  let pool := dedupRows ctx rows
  let cand := candidateOf pool
  let afterFb : Res FbState :=
    if ctx.tokens ≠ [] ∧ cand.length < limit then
      let remaining := max fetch_limit (limit * 2)
      let token_candidates := ctx.tokens.filter (fun t => t.any isLetterChar)
      lexicalFallback ctx store remaining token_candidates ⟨pool, cand, false⟩
    else .ok ⟨pool, cand, false⟩
  match afterFb with
  | .error e => .error e
  | .ok st =>
    if st.cand ≠ [] then .ok ((st.cand.insertionSort rankRel).take limit)
    else .ok ((st.byId.insertionSort distRel).take limit)

/-- The invariant the ranking phase maintains over the fallback state: the
candidate pool carries pairwise-distinct row ids, every candidate id is
registered in `rows_by_id`, `rows_by_id` itself is deduplicated, and an empty
candidate pool forces an empty `rows_by_id`. -/
def FbInv (st : FbState) : Prop :=
  (st.cand.map (fun x => x.id)).Nodup ∧
  (∀ x ∈ st.cand, x.id ∈ st.byId.map (fun x => x.id)) ∧
  (st.byId.map (fun x => x.id)).Nodup ∧
  (st.cand = [] → st.byId = [])

/-! ### The plain `/reestr` endpoint (`main.py` 586-735) -/

/-- The outcome of the `get_reestr` handler up to the point of contacting the
store: a 400 client error for unknown parameter names, a 400 client error for
a filterless request, or the SQL query text with its bound parameters (the
trailing `LIMIT %s OFFSET %s` binds `limit` and `offset`, kept as separate
fields here since the other parameters are strings). -/
inductive ReestrOutcome where
  | errUnknown (unknown : List String)
  | errNoFilter
  | query (sql : String) (params : List Str) (limit offset : Nat)
deriving DecidableEq, Repr

/-- The allow-list of `get_reestr` (`main.py` 602). -/
def reestrAllowed : List String :=
  ["inn", "tnved", "okpd2", "productname", "regnumber", "nameoforg",
   "limit", "offset", "code"]

/-- Lexicographic comparison of character lists by code point. -/
def charsLeB : Str → Str → Bool
  | [], _ => true
  | _ :: _, [] => false
  | a :: as', b :: bs' =>
    if a.toNat < b.toNat then true
    else if b.toNat < a.toNat then false
    else charsLeB as' bs'

/-- Code-point comparison of strings, matching Python's `sorted` order on
`str`. -/
def strLe (a b : String) : Prop := charsLeB a.data b.data = true

instance : DecidableRel strLe := fun a b => by
  unfold strLe; infer_instance

/-- The SQL text and parameter list built by `get_reestr` (`main.py`
618-709), in source order: code, inn, tnved, okpd2, productname, regnumber,
nameoforg, appended to `SELECT * FROM registry.reestr WHERE 1=1`. -/
def reestrQueryOf (inn tnved okpd2 productname regnumber nameoforg code : Option Str) :
    String × List Str :=
  let q0 : String × List Str := ("SELECT * FROM registry.reestr WHERE 1=1", [])
  let q1 :=
    if pyTruthy code then
      let vals := splitStrip '|' (code.getD [])
      (q0.1 ++ " AND (" ++ String.intercalate " OR "
          (vals.map fun _ => "(inn = %s OR tnved ILIKE %s)") ++ ")",
       q0.2 ++ (vals.map fun v => [v, pct v]).flatten)
    else q0
  let q2 :=
    if pyTruthy inn then
      let v := inn.getD []
      if v.contains '|' then
        let vals := splitStrip '|' v
        (q1.1 ++ " AND (" ++ String.intercalate " OR " (vals.map fun _ => "inn = %s") ++ ")",
         q1.2 ++ vals)
      else if v.contains ',' then
        let vals := splitStrip ',' v
        (q1.1 ++ String.join (vals.map fun _ => " AND inn = %s"), q1.2 ++ vals)
      else (q1.1 ++ " AND inn = %s", q1.2 ++ [v])
    else q1
  let q3 :=
    if pyTruthy tnved then
      let v := tnved.getD []
      if v.contains '|' then
        let vals := splitStrip '|' v
        (q2.1 ++ " AND (" ++ String.intercalate " OR "
            (vals.map fun _ => "tnved ILIKE %s") ++ ")",
         q2.2 ++ vals.map pct)
      else if v.contains ',' then
        let vals := splitStrip ',' v
        (q2.1 ++ String.join (vals.map fun _ => " AND tnved ILIKE %s"), q2.2 ++ vals.map pct)
      else (q2.1 ++ " AND tnved ILIKE %s", q2.2 ++ [pct v])
    else q2
  let q4 :=
    if pyTruthy okpd2 then (q3.1 ++ " AND okpd2 ILIKE %s", q3.2 ++ [pct (okpd2.getD [])])
    else q3
  let q5 :=
    if pyTruthy productname then
      let v := productname.getD []
      if v.contains '^' then
        (q4.1 ++ " AND (" ++ String.intercalate " OR "
            ((split_terms v).map fun _ => "productname ILIKE %s") ++ ")",
         q4.2 ++ (split_terms v).map pct)
      else
        (q4.1 ++ String.join ((split_terms v).map fun _ => " AND productname ILIKE %s"),
         q4.2 ++ (split_terms v).map pct)
    else q4
  let q6 :=
    if pyTruthy regnumber then
      (q5.1 ++ " AND (regnumber = %s OR registernumber = %s)",
       q5.2 ++ [regnumber.getD [], regnumber.getD []])
    else q5
  let q7 :=
    if pyTruthy nameoforg then
      let v := nameoforg.getD []
      if v.contains '^' then
        (q6.1 ++ " AND (" ++ String.intercalate " OR "
            ((split_terms v).map fun _ => "nameoforg ILIKE %s") ++ ")",
         q6.2 ++ (split_terms v).map pct)
      else
        (q6.1 ++ String.join ((split_terms v).map fun _ => " AND nameoforg ILIKE %s"),
         q6.2 ++ (split_terms v).map pct)
    else q6
  q7

/-- `get_reestr` (`main.py` 586-714) up to the store call: reject unknown
query-parameter names with a 400 error listing them sorted; normalize the
registration number; reject a request whose filters are all falsy with a 400
error; otherwise build the SQL query and parameters, ending with
`ORDER BY inn LIMIT %s OFFSET %s`. `passed` is the set of query-parameter
names of the request. -/
def get_reestr (passed : List String)
    (inn tnved okpd2 productname regnumber nameoforg code : Option Str)
    (limit offset : Nat) : ReestrOutcome :=
  let unknown := (passed.filter fun p => !reestrAllowed.contains p).dedup
  if unknown ≠ [] then .errUnknown (unknown.insertionSort strLe)
  else
    let regnumber := normalize_regnumber regnumber
    if !(pyTruthy inn || pyTruthy tnved || pyTruthy okpd2 || pyTruthy productname ||
         pyTruthy regnumber || pyTruthy nameoforg || pyTruthy code) then
      .errNoFilter
    else
      let qp := reestrQueryOf inn tnved okpd2 productname regnumber nameoforg code
      .query (qp.1 ++ " ORDER BY inn LIMIT %s OFFSET %s") qp.2 limit offset

/-! ### General lemmas about the attempt planner -/

theorem addAttempt_of_not_mem {st : PlanState} {t c : Option Str}
    (label : String) (removed : List String) (h : attemptKey t c ∉ st.seen) :
    addAttempt st label t c removed =
      ⟨st.attempts ++ [⟨label, t, c, removed⟩], st.seen ++ [attemptKey t c]⟩ := by
  simp [addAttempt, h]

theorem foldl_addAttempt (lab : Nat → String) (tv cv : Nat → Option Str)
    (rm : Nat → List String) (guard : Nat → Prop) [DecidablePred guard] :
    ∀ (ls : List Nat) (st : PlanState),
      (∀ l ∈ ls, guard l → attemptKey (tv l) (cv l) ∉ st.seen) →
      (∀ l₁ ∈ ls, ∀ l₂ ∈ ls, guard l₁ → guard l₂ → l₁ ≠ l₂ →
        attemptKey (tv l₁) (cv l₁) ≠ attemptKey (tv l₂) (cv l₂)) →
      ls.Nodup →
      ls.foldl
        (fun s len =>
          if guard len then addAttempt s (lab len) (tv len) (cv len) (rm len) else s) st
        = ⟨st.attempts ++
             ((ls.filter fun l => decide (guard l)).map fun l => ⟨lab l, tv l, cv l, rm l⟩),
           st.seen ++
             ((ls.filter fun l => decide (guard l)).map fun l => attemptKey (tv l) (cv l))⟩ := by
  intro ls
  induction ls with
  | nil => intro st _ _ _; simp
  | cons l ls ih =>
    intro st h1 h2 hnd
    rw [List.foldl_cons]
    rcases List.nodup_cons.mp hnd with ⟨hl, hnd'⟩
    by_cases hg : guard l
    · rw [if_pos hg, addAttempt_of_not_mem _ _ (h1 l (List.mem_cons_self l ls) hg)]
      rw [ih _ ?fresh ?dist hnd']
      · simp only [List.filter_cons, decide_eq_true_eq, if_pos hg, List.map_cons,
          List.append_assoc, List.cons_append, List.nil_append]
      case fresh =>
        intro l' hl' hg'
        simp only [List.mem_append, List.mem_singleton, not_or]
        refine ⟨h1 l' (List.mem_cons_of_mem _ hl') hg', ?_⟩
        exact h2 l' (List.mem_cons_of_mem _ hl') l (List.mem_cons_self l ls) hg' hg
          (fun he => hl (he ▸ hl'))
      case dist =>
        intro l₁ h₁ l₂ h₂ hg₁ hg₂ hne
        exact h2 l₁ (List.mem_cons_of_mem _ h₁) l₂ (List.mem_cons_of_mem _ h₂) hg₁ hg₂ hne
    · rw [if_neg hg]
      rw [ih _ (fun l' hl' hg' => h1 l' (List.mem_cons_of_mem _ hl') hg')
        (fun l₁ h₁ l₂ h₂ hg₁ hg₂ hne =>
          h2 l₁ (List.mem_cons_of_mem _ h₁) l₂ (List.mem_cons_of_mem _ h₂) hg₁ hg₂ hne) hnd']
      simp only [List.filter_cons, decide_eq_true_eq, if_neg hg]

theorem simpleDigits_simple {v : Option Str} (h : simpleDigitsOf v ≠ []) :
    _is_simple_value v = true := by
  by_cases hs : _is_simple_value v
  · exact hs
  · exact absurd (by simp [simpleDigitsOf, hs]) h

theorem simpleDigits_truthy {v : Option Str} (h : simpleDigitsOf v ≠ []) :
    v.getD [] ≠ [] ∧ pyTruthy v = true := by
  have hs := simpleDigits_simple h
  cases v with
  | none => simp [_is_simple_value] at hs
  | some w =>
    have hw : w ≠ [] := by
      intro hnil
      subst hnil
      simp [_is_simple_value] at hs
    exact ⟨by simpa using hw, by simpa [pyTruthy, List.isEmpty_iff] using hw⟩

theorem simpleDigits_length_le (v : Option Str) :
    (simpleDigitsOf v).length ≤ (v.getD []).length := by
  cases v with
  | none => simp [simpleDigitsOf, _strip_digits, _is_simple_value]
  | some w =>
    by_cases hs : _is_simple_value (some w)
    · simpa [simpleDigitsOf, hs, _strip_digits] using List.length_filter_le _ w
    · simp [simpleDigitsOf, hs]

theorem simpleDigits_take_ne {v : Option Str} {l : Nat}
    (h : l < (simpleDigitsOf v).length) :
    (simpleDigitsOf v).take l ≠ v.getD [] := by
  intro he
  have h1 : ((simpleDigitsOf v).take l).length = l := by
    rw [List.length_take]; omega
  have h2 := simpleDigits_length_le v
  rw [he] at h1
  omega

theorem take_length_of_le {l : Str} {n : Nat} (h : n ≤ l.length) :
    (l.take n).length = n := by
  rw [List.length_take]; omega

/-- Full characterization of the planned attempt list: the original attempt,
then the classification-prefix attempts, then the code-as-classification
attempts, then the classification-removed attempt, each segment present
exactly under its source condition. The `_add_attempt` deduplication never
drops an attempt: all keys produced by the planner are pairwise distinct. -/
theorem tnvedPrefixKeys_fst {tnved code : Option Str} {k : Str × Str}
    (h : k ∈ tnvedPrefixKeys tnved code) : k.1 ≠ [] ∧ k.2 = code.getD [] := by
  by_cases htd : simpleDigitsOf tnved = []
  · simp [tnvedPrefixKeys, htd] at h
  · simp only [tnvedPrefixKeys, if_pos htd, List.mem_map, List.mem_filter,
      decide_eq_true_eq] at h
    obtain ⟨l, ⟨-, hg⟩, rfl⟩ := h
    refine ⟨?_, rfl⟩
    have : ((simpleDigitsOf tnved).take l).length = l := take_length_of_le (le_of_lt hg.1)
    simp only [attemptKey, Option.getD_some]
    intro he
    rw [he] at this
    simp at this
    omega

theorem codeAsTnvedKeys_fst {tnved code : Option Str} {k : Str × Str}
    (h : k ∈ codeAsTnvedKeys tnved code) : k.1 ≠ [] ∧ k.2 = [] := by
  by_cases hc : simpleDigitsOf tnved = [] ∧ simpleDigitsOf code ≠ []
  · simp only [codeAsTnvedKeys, if_pos hc, List.mem_map, List.mem_filter,
      decide_eq_true_eq] at h
    obtain ⟨l, ⟨-, hg⟩, rfl⟩ := h
    refine ⟨?_, rfl⟩
    have : ((simpleDigitsOf code).take l).length = l := take_length_of_le hg.1
    simp only [attemptKey, Option.getD_some]
    intro he
    rw [he] at this
    simp at this
    omega
  · simp [codeAsTnvedKeys, hc] at h

theorem planPrefixStage_eq (tnved code : Option Str) (st : PlanState)
    (hfresh : ∀ l ∈ prefixLengths, l < (simpleDigitsOf tnved).length → 4 ≤ l →
      attemptKey (some ((simpleDigitsOf tnved).take l)) code ∉ st.seen) :
    planPrefixStage tnved code st =
      ⟨st.attempts ++ tnvedPrefixSeg tnved code,
       st.seen ++ tnvedPrefixKeys tnved code⟩ := by
  by_cases htd : simpleDigitsOf tnved = []
  · simp [planPrefixStage, tnvedPrefixSeg, tnvedPrefixKeys, htd]
  · rw [planPrefixStage, if_pos (by simpa using htd)]
    rw [foldl_addAttempt (fun len => "tnved_prefix_" ++ toString len)
      (fun len => some ((simpleDigitsOf tnved).take len)) (fun _ => code)
      (fun _ => []) (fun len => len < (simpleDigitsOf tnved).length ∧ 4 ≤ len)
      prefixLengths st (fun l hl hg => hfresh l hl hg.1 hg.2) ?dist (by decide)]
    case dist =>
      intro l₁ _ l₂ _ hg₁ hg₂ hne
      simp only [attemptKey, Option.getD_some, ne_eq, Prod.mk.injEq, not_and]
      intro he _
      have e₁ : ((simpleDigitsOf tnved).take l₁).length = l₁ :=
        take_length_of_le (le_of_lt hg₁.1)
      have e₂ : ((simpleDigitsOf tnved).take l₂).length = l₂ :=
        take_length_of_le (le_of_lt hg₂.1)
      rw [he, e₂] at e₁
      exact hne e₁.symm
    simp [tnvedPrefixSeg, tnvedPrefixKeys, htd]

theorem planCodeStage_eq (tnved code : Option Str) (st : PlanState)
    (hfresh : simpleDigitsOf tnved = [] → simpleDigitsOf code ≠ [] →
      ∀ l ∈ prefixLengths,
      l ≤ (simpleDigitsOf code).length → 4 ≤ l →
      attemptKey (some ((simpleDigitsOf code).take l)) none ∉ st.seen) :
    planCodeStage tnved code st =
      ⟨st.attempts ++ codeAsTnvedSeg tnved code,
       st.seen ++ codeAsTnvedKeys tnved code⟩ := by
  by_cases hc : simpleDigitsOf tnved = [] ∧ simpleDigitsOf code ≠ []
  · rw [planCodeStage, if_pos hc]
    have hptc : pyTruthy code = true := (simpleDigits_truthy hc.2).2
    rw [foldl_addAttempt (fun len => "code_as_tnved_" ++ toString len)
      (fun len => some ((simpleDigitsOf code).take len)) (fun _ => none)
      (fun _ => if pyTruthy code then ["code"] else [])
      (fun len => (simpleDigitsOf code).length ≥ len ∧ 4 ≤ len)
      prefixLengths st (fun l hl hg => hfresh hc.1 hc.2 l hl hg.1 hg.2) ?dist (by decide)]
    case dist =>
      intro l₁ _ l₂ _ hg₁ hg₂ hne
      simp only [attemptKey, Option.getD_some, ne_eq, Prod.mk.injEq, not_and]
      intro he _
      have e₁ : ((simpleDigitsOf code).take l₁).length = l₁ := take_length_of_le hg₁.1
      have e₂ : ((simpleDigitsOf code).take l₂).length = l₂ := take_length_of_le hg₂.1
      rw [he, e₂] at e₁
      exact hne e₁.symm
    simp [codeAsTnvedSeg, codeAsTnvedKeys, hc.1, hc.2, hptc]
  · rw [planCodeStage, if_neg hc]
    simp [codeAsTnvedSeg, codeAsTnvedKeys, hc]

theorem planRemoveStage_eq (tnved code : Option Str) (st : PlanState)
    (hfresh : pyTruthy tnved = true → attemptKey none code ∉ st.seen) :
    (planRemoveStage tnved code st).attempts =
      st.attempts ++ tnvedRemovedSeg tnved code := by
  by_cases hpt : pyTruthy tnved = true
  · rw [planRemoveStage, if_pos (Or.inr hpt), addAttempt_of_not_mem _ _ (hfresh hpt)]
    simp [tnvedRemovedSeg, hpt]
  · have htd : simpleDigitsOf tnved = [] := by
      by_contra h
      exact hpt (simpleDigits_truthy h).2
    rw [planRemoveStage, if_neg (by simp [htd, hpt])]
    simp [tnvedRemovedSeg, hpt]

/-- Full characterization of the planned attempt list: the original attempt,
then the classification-prefix attempts, then the code-as-classification
attempts, then the classification-removed attempt, each segment present
exactly under its source condition. The `_add_attempt` deduplication never
drops an attempt: all keys produced by the planner are pairwise distinct. -/
theorem planAttempts_eq (tnved code : Option Str) :
    planAttempts tnved code =
      ⟨"original", tnved, code, []⟩ ::
        (tnvedPrefixSeg tnved code ++ codeAsTnvedSeg tnved code ++
          tnvedRemovedSeg tnved code) := by
  have h0 : addAttempt ⟨[], []⟩ "original" tnved code [] =
      ⟨[⟨"original", tnved, code, []⟩], [attemptKey tnved code]⟩ := by
    simp [addAttempt]
  rw [planAttempts, h0]
  rw [planPrefixStage_eq tnved code _ ?freshA]
  case freshA =>
    intro l _ hlt _
    simp only [List.mem_singleton, attemptKey, Option.getD_some]
    intro he
    exact simpleDigits_take_ne hlt (congrArg Prod.fst he)
  rw [planCodeStage_eq tnved code _ ?freshB]
  case freshB =>
    intro htd hcd l _ hle h4
    have hcg : code.getD [] ≠ [] := (simpleDigits_truthy hcd).1
    simp only [List.mem_append, List.mem_singleton, not_or]
    refine ⟨fun he => ?_, fun he => ?_⟩
    · simp only [attemptKey, Option.getD_some] at he
      exact hcg (congrArg Prod.snd he).symm
    · simp [tnvedPrefixKeys, htd] at he
  rw [planRemoveStage_eq tnved code _ ?freshC]
  case freshC =>
    intro hpt
    have hget : tnved.getD [] ≠ [] := by
      simpa [pyTruthy, List.isEmpty_iff] using hpt
    simp only [List.mem_append, List.mem_singleton, not_or]
    refine ⟨⟨fun he => ?_, fun he => ?_⟩, fun he => ?_⟩
    · simp only [attemptKey, Option.getD_none] at he
      exact hget (congrArg Prod.fst he).symm
    · exact (tnvedPrefixKeys_fst he).1 rfl
    · exact (codeAsTnvedKeys_fst he).1 rfl
  simp [List.append_assoc]

/-! ### C2: ancestor-prefix attempts -/

/-- C2 (counterexample): the claim quantifies over every classification value
with at least five digits, but for the OR-valued classification `"1|23456"`
(six digits) the planner produces no ancestor-prefix attempt at all, although
the claim requires one for length 4: the prefix loop only runs for single
non-OR/AND values. -/
theorem c2_counterexample :
    (_strip_digits (some "1|23456".data)).length = 6 ∧
    planAttempts (some "1|23456".data) none =
      [⟨"original", some "1|23456".data, none, []⟩,
       ⟨"tnved_removed", none, none, ["tnved"]⟩] := by
  decide

/-- C2 (amended): for every classification value that is a single non-OR/AND
value whose digit count is at least 5, the planner produces exactly the
ancestor-prefix attempts for the lengths in {10, 8, 6, 4} that are ≥ 4 and
strictly shorter than the digit count, in descending length order, each using
the digit-prefix of that length as the classification filter and keeping the
same universal code — followed only by the final classification-removed
attempt. -/
theorem c2_ancestor_attempts (tnved code : Option Str)
    (hs : _is_simple_value tnved = true)
    (h5 : 5 ≤ (_strip_digits tnved).length) :
    planAttempts tnved code =
      ⟨"original", tnved, code, []⟩ ::
        ((prefixLengths.filter fun len =>
            decide (len < (_strip_digits tnved).length ∧ 4 ≤ len)).map
          fun len => ⟨"tnved_prefix_" ++ toString len,
            some ((_strip_digits tnved).take len), code, []⟩) ++
        [⟨"tnved_removed", none, code, ["tnved"]⟩] := by
  have htd : simpleDigitsOf tnved = _strip_digits tnved := by
    simp [simpleDigitsOf, hs]
  have htdne : simpleDigitsOf tnved ≠ [] := by
    rw [htd]
    intro he
    rw [he] at h5
    simp at h5
  have hpt : pyTruthy tnved = true := (simpleDigits_truthy htdne).2
  rw [planAttempts_eq]
  rw [show codeAsTnvedSeg tnved code = [] by simp [codeAsTnvedSeg, htdne]]
  rw [show tnvedRemovedSeg tnved code = [⟨"tnved_removed", none, code, ["tnved"]⟩] by
    simp [tnvedRemovedSeg, hpt]]
  rw [show tnvedPrefixSeg tnved code =
      (prefixLengths.filter fun len =>
          decide (len < (_strip_digits tnved).length ∧ 4 ≤ len)).map
        fun len => ⟨"tnved_prefix_" ++ toString len,
          some ((_strip_digits tnved).take len), code, []⟩ by
    simp only [tnvedPrefixSeg, htd]
    rw [if_pos (htd ▸ htdne)]]
  simp

/-- C2 (witness): the amended theorem applied to the ten-digit classification
code `"8471300000"` with no universal code. -/
theorem c2_witness :
    planAttempts (some "8471300000".data) none =
      [⟨"original", some "8471300000".data, none, []⟩,
       ⟨"tnved_prefix_8", some "84713000".data, none, []⟩,
       ⟨"tnved_prefix_6", some "847130".data, none, []⟩,
       ⟨"tnved_prefix_4", some "8471".data, none, []⟩,
       ⟨"tnved_removed", none, none, ["tnved"]⟩] := by
  rw [c2_ancestor_attempts (some "8471300000".data) none (by decide) (by decide)]
  decide

/-! ### C5: code-as-classification attempts -/

/-- C5 (counterexample): a classification value (`"1|2"`) is supplied, so the
claim forbids any code-as-classification attempt, but the planner produces
`code_as_tnved_4` (dropping the `code` filter) because the supplied
classification value yields no digits under the simple-value test. -/
theorem c5_counterexample :
    pyTruthy (some "1|2".data) = true ∧
    planAttempts (some "1|2".data) (some "1234".data) =
      [⟨"original", some "1|2".data, some "1234".data, []⟩,
       ⟨"code_as_tnved_4", some "1234".data, none, ["code"]⟩,
       ⟨"tnved_removed", none, some "1234".data, ["tnved"]⟩] := by
  decide

/-- C5 (amended): the attempts that drop the `code` filter are exactly the
`code_as_tnved_{10,8,6,4}` attempts of `codeAsTnvedSeg`: they are produced
precisely when the universal code is a single non-OR/AND value with at least
one digit and the classification value yields no digits (it is absent, an
OR/AND multi-value, empty, or digit-free) — not only when no classification
value is given — and the lengths used are exactly those in {10, 8, 6, 4}
that are at most the code's digit count. -/
theorem c5_code_attempts (tnved code : Option Str) :
    (planAttempts tnved code).filter
        (fun a => decide (a.removed_filters = ["code"])) =
      codeAsTnvedSeg tnved code := by
  rw [planAttempts_eq]
  rw [List.filter_cons_of_neg (by simp)]
  rw [List.filter_append, List.filter_append]
  have hA : (tnvedPrefixSeg tnved code).filter
      (fun a => decide (a.removed_filters = ["code"])) = [] := by
    rw [List.filter_eq_nil_iff]
    intro a ha
    rw [tnvedPrefixSeg] at ha
    split at ha
    · simp only [List.mem_map] at ha
      obtain ⟨l, -, rfl⟩ := ha
      simp
    · simp at ha
  have hC : (tnvedRemovedSeg tnved code).filter
      (fun a => decide (a.removed_filters = ["code"])) = [] := by
    rw [tnvedRemovedSeg]
    split <;> simp
  have hB : (codeAsTnvedSeg tnved code).filter
      (fun a => decide (a.removed_filters = ["code"])) = codeAsTnvedSeg tnved code := by
    rw [List.filter_eq_self]
    intro a ha
    rw [codeAsTnvedSeg] at ha
    split at ha
    · simp only [List.mem_map] at ha
      obtain ⟨l, -, rfl⟩ := ha
      simp
    · simp at ha
  rw [hA, hB, hC]
  simp

/-! ### C6: the classification-removed attempt -/

/-- C6 (counterexample): with no classification value and universal code
`"1234"`, a classification value is derived from the code (the
`code_as_tnved_4` attempt carries it), yet the planner appends no attempt
removing the classification filter: no attempt records `"tnved"` in
`removed_filters`. -/
theorem c6_counterexample :
    planAttempts none (some "1234".data) =
      [⟨"original", none, some "1234".data, []⟩,
       ⟨"code_as_tnved_4", some "1234".data, none, ["code"]⟩] ∧
    (∃ a ∈ planAttempts none (some "1234".data),
      a.label ≠ "original" ∧ a.tnved ≠ none) ∧
    ∀ a ∈ planAttempts none (some "1234".data), "tnved" ∉ a.removed_filters := by
  decide

/-- C6 (amended): the planner appends the final classification-removed
attempt (label `tnved_removed`, classification dropped, same code, `"tnved"`
recorded in `removed_filters`) exactly when the original classification value
is truthy; when the classification value is only derived from the universal
code, no such attempt exists. -/
theorem c6_tnved_removed_attempt (tnved code : Option Str) :
    (pyTruthy tnved = true →
      (planAttempts tnved code).getLast? =
        some ⟨"tnved_removed", none, code, ["tnved"]⟩) ∧
    (pyTruthy tnved = false →
      ∀ a ∈ planAttempts tnved code, "tnved" ∉ a.removed_filters) := by
  constructor
  · intro hpt
    rw [planAttempts_eq,
      show tnvedRemovedSeg tnved code = [⟨"tnved_removed", none, code, ["tnved"]⟩] by
        simp [tnvedRemovedSeg, hpt]]
    rw [show (⟨"original", tnved, code, []⟩ :: (tnvedPrefixSeg tnved code ++
        codeAsTnvedSeg tnved code ++ [⟨"tnved_removed", none, code, ["tnved"]⟩]) :
        List Attempt) =
      (⟨"original", tnved, code, []⟩ :: (tnvedPrefixSeg tnved code ++
        codeAsTnvedSeg tnved code)) ++ [⟨"tnved_removed", none, code, ["tnved"]⟩] by
      simp]
    exact List.getLast?_concat _
  · intro hpt a ha
    rw [planAttempts_eq] at ha
    rw [show tnvedRemovedSeg tnved code = [] by simp [tnvedRemovedSeg, hpt]] at ha
    simp only [List.append_nil, List.mem_cons, List.mem_append] at ha
    rcases ha with rfl | ha | ha
    · simp
    · rw [tnvedPrefixSeg] at ha
      split at ha
      · simp only [List.mem_map] at ha
        obtain ⟨l, -, rfl⟩ := ha
        simp
      · simp at ha
    · rw [codeAsTnvedSeg] at ha
      split at ha
      · simp only [List.mem_map] at ha
        obtain ⟨l, -, rfl⟩ := ha
        simp
      · simp at ha

/-- C6 (witness): the amended theorem applied to classification value `"12"`
(truthy) and no code: the last planned attempt removes the classification
filter. -/
theorem c6_witness :
    (planAttempts (some "12".data) none).getLast? =
      some ⟨"tnved_removed", none, none, ["tnved"]⟩ :=
  (c6_tnved_removed_attempt (some "12".data) none).1 (by decide)

/-! ### C7: free-text term clauses -/

/-- C7 (counterexample): the claim says terms are delimited by `$` or space,
but the clause builder splits only on `$`/`^`: for the organization name
`"ab cd"` it emits a single substring clause for the whole value, where the
claim requires one clause per space-delimited term (two). -/
theorem c7_counterexample :
    build_filter_clauses none none none none (some "ab cd".data) none =
      (["r.nameoforg ILIKE %s"], ["%ab cd%".data]) ∧
    split_terms_spaceSpec "ab cd".data = ["ab".data, "cd".data] ∧
    split_terms "ab cd".data = ["ab cd".data] := by
  decide

/-- C7 (amended): for every non-empty organization-name filter value, the
clause builder splits the value into terms delimited by `$` or `^` (space is
not a delimiter) and emits one AND-required case-insensitive substring clause
per term; if the value contains `^`, the same terms are instead OR-combined
into a single clause. -/
theorem c7_nameoforg_term_clauses (v : Str) (hv : v ≠ []) :
    build_filter_clauses none none none none (some v) none =
      (if v.contains '^' then
        (["(" ++ String.intercalate " OR "
            ((split_terms v).map fun _ => "r.nameoforg ILIKE %s") ++ ")"],
         (split_terms v).map pct)
       else ((split_terms v).map fun _ => "r.nameoforg ILIKE %s",
         (split_terms v).map pct)) := by
  by_cases hc : v.contains '^' <;>
    simp [build_filter_clauses, codeClauses, innClauses, tnvedClauses, okpd2Clauses,
      regnumberClauses, nameoforgClauses, hv, hc]

/-- C7 (witness): the amended theorem applied to `"x$y"`: two AND-required
clauses, one per `$`-delimited term. -/
theorem c7_witness :
    build_filter_clauses none none none none (some "x$y".data) none =
      (["r.nameoforg ILIKE %s", "r.nameoforg ILIKE %s"],
       ["%x%".data, "%y%".data]) := by
  rw [c7_nameoforg_term_clauses "x$y".data (by decide)]
  decide

/-! ### C10: registration-number normalization -/

theorem reestrQueryOf_only_regnumber (v : Str) (hv : v ≠ []) :
    reestrQueryOf none none none none (some v) none none =
      ("SELECT * FROM registry.reestr WHERE 1=1 AND (regnumber = %s OR registernumber = %s)",
       [v, v]) := by
  simp [reestrQueryOf, pyTruthy, List.isEmpty_iff, hv]

/-- C10: a supplied registration number is normalized before matching:
surrounding whitespace and double quotes are stripped and `/` becomes `\`;
the normalized value is bound twice in one exact-equality clause against the
`regnumber` and `registernumber` columns; a value that is empty after
stripping contributes no clause and counts as no filter (the plain endpoint
answers 400 when it is the only filter). -/
theorem c10_regnumber_normalized (val : Str) (hval : val ≠ []) :
    normalize_regnumber (some val) =
      some ((pyStrip (pyStripChar '"' (pyStrip val))).map
        (fun c => if c = '/' then '\\' else c)) ∧
    (∀ v, normalize_regnumber (some val) = some v →
      build_filter_clauses none none none (some v) none none =
        if v = [] then ([], [])
        else (["(r.regnumber = %s OR r.registernumber = %s)"], [v, v])) ∧
    (∀ v limit offset, normalize_regnumber (some val) = some v →
      get_reestr ["regnumber"] none none none none (some val) none none limit offset =
        if v = [] then .errNoFilter
        else .query ("SELECT * FROM registry.reestr WHERE 1=1 AND (regnumber = %s OR registernumber = %s) ORDER BY inn LIMIT %s OFFSET %s")
          [v, v] limit offset) := by
  refine ⟨by simp [normalize_regnumber, hval], fun v hv => ?_, fun v limit offset hv => ?_⟩
  · by_cases hve : v = [] <;>
      simp [build_filter_clauses, codeClauses, innClauses, tnvedClauses, okpd2Clauses,
        regnumberClauses, nameoforgClauses, hve]
  · have h1 : ((["regnumber"].filter fun p => !reestrAllowed.contains p).dedup :
        List String) = [] := by decide
    by_cases hve : v = []
    · simp only [get_reestr, h1, hv, hve]
      rw [if_neg (by simp)]
      rw [if_pos (by simp [pyTruthy])]
      simp
    · have hq := reestrQueryOf_only_regnumber v hve
      simp only [get_reestr, h1, hv]
      rw [if_neg (by simp)]
      rw [if_neg (by simp [pyTruthy, List.isEmpty_iff, hve])]
      rw [if_neg hve, hq]
      rfl

/-- C10 (witness): the normalization and clause theorem applied to
`' "12/34" '`. -/
theorem c10_witness :
    get_reestr ["regnumber"] none none none none (some " \"12/34\" ".data) none none 20 0 =
      .query ("SELECT * FROM registry.reestr WHERE 1=1 AND (regnumber = %s OR registernumber = %s) ORDER BY inn LIMIT %s OFFSET %s")
        ["12\\34".data, "12\\34".data] 20 0 := by
  have h := (c10_regnumber_normalized " \"12/34\" ".data (by decide)).2.2
    "12\\34".data 20 0 (by decide)
  rw [h]
  decide

/-! ### C9: plain-endpoint request validation -/

/-- C9: the plain endpoint rejects, before any store access, requests whose
query string carries a name outside the allow-list (400, listing exactly the
unknown names, sorted) and requests providing no filter parameter at all
(400); in both cases the outcome carries no SQL query. -/
theorem c9_reestr_validation (passed : List String)
    (inn tnved okpd2 productname regnumber nameoforg code : Option Str)
    (limit offset : Nat) :
    ((∃ p ∈ passed, p ∉ reestrAllowed) →
      get_reestr passed inn tnved okpd2 productname regnumber nameoforg code
          limit offset =
        .errUnknown
          (((passed.filter fun p => !reestrAllowed.contains p).dedup).insertionSort strLe) ∧
      (∀ s, s ∈ ((passed.filter fun p =>
            !reestrAllowed.contains p).dedup).insertionSort strLe ↔
          s ∈ passed ∧ s ∉ reestrAllowed) ∧
      ∀ sql ps l o,
        get_reestr passed inn tnved okpd2 productname regnumber nameoforg code
          limit offset ≠ .query sql ps l o) ∧
    ((inn = none ∧ tnved = none ∧ okpd2 = none ∧ productname = none ∧
        regnumber = none ∧ nameoforg = none ∧ code = none) →
      (∀ p ∈ passed, p ∈ reestrAllowed) →
      get_reestr passed inn tnved okpd2 productname regnumber nameoforg code
          limit offset = .errNoFilter ∧
      ∀ sql ps l o,
        get_reestr passed inn tnved okpd2 productname regnumber nameoforg code
          limit offset ≠ .query sql ps l o) := by
  constructor
  · rintro ⟨p, hp, hpn⟩
    have hmem : p ∈ (passed.filter fun p => !reestrAllowed.contains p) :=
      List.mem_filter.mpr ⟨hp, by simpa using hpn⟩
    have hne : (passed.filter fun p => !reestrAllowed.contains p).dedup ≠ [] :=
      List.ne_nil_of_mem (List.mem_dedup.mpr hmem)
    have heq : get_reestr passed inn tnved okpd2 productname regnumber nameoforg code
        limit offset =
      .errUnknown
        (((passed.filter fun p => !reestrAllowed.contains p).dedup).insertionSort strLe) := by
      rw [get_reestr, if_pos hne]
    refine ⟨heq, fun s => ?_, ?_⟩
    · rw [(List.perm_insertionSort strLe _).mem_iff, List.mem_dedup, List.mem_filter]
      simp
    · intro sql ps l o hq
      rw [heq] at hq
      exact ReestrOutcome.noConfusion hq
  · rintro ⟨rfl, rfl, rfl, rfl, rfl, rfl, rfl⟩ hall
    have hnil : (passed.filter fun p => !reestrAllowed.contains p) = [] := by
      rw [List.filter_eq_nil_iff]
      intro a ha
      simpa using hall a ha
    have heq : get_reestr passed none none none none none none none limit offset =
        .errNoFilter := by
      rw [get_reestr, hnil]
      simp [normalize_regnumber, pyTruthy]
    refine ⟨heq, ?_⟩
    intro sql ps l o hq
    rw [heq] at hq
    exact ReestrOutcome.noConfusion hq

/-- C9 (witness): a request with the unknown names `foo`, `bar` is rejected
listing them sorted; a request with only allowed names and no filters is
rejected as filterless. -/
theorem c9_witness :
    get_reestr ["foo", "bar", "foo"] none none none none none none none 10 0 =
      .errUnknown ["bar", "foo"] ∧
    get_reestr ["inn", "limit"] none none none none none none none 10 0 =
      .errNoFilter := by
  constructor
  · have h := (c9_reestr_validation ["foo", "bar", "foo"] none none none none none
      none none 10 0).1 ⟨"foo", by decide, by decide⟩
    rw [h.1]
    decide
  · exact ((c9_reestr_validation ["inn", "limit"] none none none none none
      none none 10 0).2 ⟨rfl, rfl, rfl, rfl, rfl, rfl, rfl⟩ (by decide)).1


/-! ### C1: attempt execution with fetch-size doubling -/

theorem ladder_ne_nil (c : Nat) : ladder c ≠ [] := by
  rw [ladder]
  split <;> simp

theorem getLastD_irrel {α : Type} {l : List α} (h : l ≠ []) (d₁ d₂ : α) :
    l.getLastD d₁ = l.getLastD d₂ := by
  cases l with
  | nil => exact absurd rfl h
  | cons x t => rw [List.getLastD_cons, List.getLastD_cons]

theorem fetchGo_eq_ladderEval {α : Type} [DecidableEq α]
    (store : Nat → List α × Int) :
    ∀ (fuel c : Nat), 1 ≤ c → 800 ≤ c * 2 ^ fuel →
      fetchGo store fuel c = ladderEval store c := by
  intro fuel
  induction fuel with
  | zero =>
    intro c hc h800
    simp only [pow_zero, mul_one] at h800
    have hl : ladder c = [c] := by rw [ladder]; exact dif_pos (Or.inl h800)
    rw [fetchGo, ladderEval, hl]
    cases hf : [c].find? (fun s => decide ((store s).1 ≠ [])) with
    | none => simp [List.getLastD]
    | some u =>
      have hu : u = c := by simpa using List.mem_of_find?_eq_some hf
      subst hu
      rfl
  | succ fuel ih =>
    intro c hc h800
    rw [fetchGo]
    by_cases h1 : (store c).1 ≠ [] ∨ 800 ≤ c
    · rw [if_pos h1]
      by_cases hr : (store c).1 ≠ []
      · have hl : ∃ t, ladder c = c :: t := by
          rw [ladder]
          split
          · exact ⟨[], rfl⟩
          · exact ⟨_, rfl⟩
        obtain ⟨t, hl⟩ := hl
        rw [ladderEval, hl, List.find?_cons_of_pos _ (by simpa using hr)]
      · have h800c : 800 ≤ c := by
          rcases h1 with h | h
          · exact absurd h hr
          · exact h
        have hl : ladder c = [c] := by rw [ladder]; exact dif_pos (Or.inl h800c)
        rw [ladderEval, hl, List.find?_cons_of_neg _ (by simpa using hr)]
        simp [List.getLastD]
    · push_neg at h1
      obtain ⟨hr, hc800⟩ := h1
      rw [if_neg (by simp [hr]; omega)]
      have hc' : 1 ≤ min (c * 2) 800 := by omega
      have h800' : 800 ≤ min (c * 2) 800 * 2 ^ fuel := by
        rcases le_or_lt (c * 2) 800 with hm | hm
        · rw [min_eq_left hm]
          have e : c * 2 ^ (fuel + 1) = c * 2 * 2 ^ fuel := by ring
          rw [e] at h800
          exact h800
        · rw [min_eq_right (le_of_lt hm)]
          calc 800 = 800 * 1 := by ring
          _ ≤ 800 * 2 ^ fuel := Nat.mul_le_mul_left _ Nat.one_le_two_pow
      rw [ih _ hc' h800']
      have hl : ladder c = c :: ladder (min (c * 2) 800) := by
        rw [ladder]
        exact dif_neg (by omega)
      rw [ladderEval, ladderEval, hl,
        List.find?_cons_of_neg _ (by simpa using hr)]
      cases hf : (ladder (min (c * 2) 800)).find? (fun s => decide ((store s).1 ≠ [])) with
      | some u => rfl
      | none =>
        rw [List.getLastD_cons,
          getLastD_irrel (ladder_ne_nil (min (c * 2) 800)) c (min (c * 2) 800)]

theorem fetchLoop_eq_ladderEval {α : Type} [DecidableEq α]
    (store : Nat → List α × Int) (c : Nat) (hc : 1 ≤ c) :
    fetchLoop store c = ladderEval store c := by
  refine fetchGo_eq_ladderEval store 11 c hc ?_
  calc (800 : Nat) ≤ 1 * 2 ^ 11 := by norm_num
  _ ≤ c * 2 ^ 11 := Nat.mul_le_mul_right _ hc

theorem runGo_first_hit {α : Type} [DecidableEq α] (store : Store α)
    (f : OtherFilters) (fl : Nat) (a : Attempt) (post : List Attempt) :
    ∀ (pre : List Attempt) (idx : Nat) (hist : List HistoryEntry)
      (lc : List String) (lp : List Str),
      (∀ b ∈ pre, (execAttempt store f fl b).1 = []) →
      (execAttempt store f fl a).1 ≠ [] →
      runGo store f fl (pre ++ a :: post) idx hist lc lp =
        ⟨(execAttempt store f fl a).1, (attemptClauses f a).1, (attemptClauses f a).2,
         idx + pre.length, hist ++ historyFrom store f fl idx (pre ++ [a])⟩ := by
  intro pre
  induction pre with
  | nil =>
    intro idx hist lc lp hpre ha
    simp only [List.nil_append]
    rw [runGo]
    simp only [execAttempt] at ha
    rw [if_pos ha]
    simp [historyFrom, entryFor, execAttempt]
  | cons b pre ih =>
    intro idx hist lc lp hpre ha
    simp only [List.cons_append]
    rw [runGo]
    have hb : (execAttempt store f fl b).1 = [] := hpre b (List.mem_cons_self b pre)
    simp only [execAttempt] at hb
    rw [if_neg (by simp [hb])]
    rw [ih (idx + 1) _ _ _ (fun x hx => hpre x (List.mem_cons_of_mem _ hx)) ha]
    rw [RunResult.mk.injEq]
    refine ⟨rfl, rfl, rfl, by simp [List.length_cons]; omega, ?_⟩
    simp [historyFrom, entryFor, execAttempt, hb, List.append_assoc]

theorem runGo_all_empty {α : Type} [DecidableEq α] (store : Store α)
    (f : OtherFilters) (fl : Nat) :
    ∀ (attempts : List Attempt) (idx : Nat) (hist : List HistoryEntry)
      (lc : List String) (lp : List Str),
      (∀ b ∈ attempts, (execAttempt store f fl b).1 = []) →
      runGo store f fl attempts idx hist lc lp =
        ⟨[], (lastAttemptClauses f attempts lc lp).1,
         (lastAttemptClauses f attempts lc lp).2, 0,
         hist ++ historyFrom store f fl idx attempts⟩ := by
  intro attempts
  induction attempts with
  | nil =>
    intro idx hist lc lp _
    rw [runGo]
    simp [lastAttemptClauses, historyFrom]
  | cons a rest ih =>
    intro idx hist lc lp hall
    rw [runGo]
    have hb : (execAttempt store f fl a).1 = [] := hall a (List.mem_cons_self a rest)
    simp only [execAttempt] at hb
    rw [if_neg (by simp [hb])]
    rw [ih (idx + 1) _ _ _ (fun x hx => hall x (List.mem_cons_of_mem _ hx))]
    have hlast : lastAttemptClauses f (a :: rest) lc lp =
        lastAttemptClauses f rest (attemptClauses f a).1 (attemptClauses f a).2 := by
      cases rest with
      | nil => simp [lastAttemptClauses, attemptClauses]
      | cons x t =>
        cases hg : (x :: t).getLast? with
        | none => simp at hg
        | some y => simp [lastAttemptClauses, List.getLast?_cons_cons, hg]
    rw [hlast]
    simp [historyFrom, entryFor, execAttempt, hb, List.append_assoc]

/-- C1: the semantic handler executes the planned attempts strictly in order.
Each attempt issues its vector query through the fetch loop, whose result is
exactly described by the doubling schedule `ladder`: the fetch size starts at
`fetchLimit limit offset = max(2*limit, offset+limit)` and doubles (capped at
800) until a query returns at least one row or the cap is reached. The loop
stops at the first attempt yielding rows, having recorded one history entry
per executed attempt (row count, fetch size used, elapsed time); if every
attempt yields zero rows, the final row set is empty and the last attempt's
clause set and parameter values are retained. -/
theorem c1_attempt_execution {α : Type} [DecidableEq α] (store : Store α)
    (f : OtherFilters) (attempts : List Attempt) (limit offset : Nat) :
    (∀ (st : Nat → List α × Int) (c : Nat), 1 ≤ c →
      fetchLoop st c = ladderEval st c) ∧
    (∀ (pre post : List Attempt) (a : Attempt),
      attempts = pre ++ a :: post →
      (∀ b ∈ pre, (execAttempt store f (fetchLimit limit offset) b).1 = []) →
      (execAttempt store f (fetchLimit limit offset) a).1 ≠ [] →
      runAttempts store f attempts limit offset =
        ⟨(execAttempt store f (fetchLimit limit offset) a).1,
         (attemptClauses f a).1, (attemptClauses f a).2, pre.length,
         historyFrom store f (fetchLimit limit offset) 0 (pre ++ [a])⟩) ∧
    ((∀ b ∈ attempts, (execAttempt store f (fetchLimit limit offset) b).1 = []) →
      ∀ a, attempts.getLast? = some a →
      runAttempts store f attempts limit offset =
        ⟨[], (attemptClauses f a).1, (attemptClauses f a).2, 0,
         historyFrom store f (fetchLimit limit offset) 0 attempts⟩) := by
  refine ⟨fun st c hc => fetchLoop_eq_ladderEval st c hc, ?_, ?_⟩
  · intro pre post a hsplit hpre ha
    rw [runAttempts, hsplit,
      runGo_first_hit store f (fetchLimit limit offset) a post pre 0 [] [] [] hpre ha]
    simp
  · intro hall a hlast
    rw [runAttempts,
      runGo_all_empty store f (fetchLimit limit offset) attempts 0 [] [] [] hall]
    simp [lastAttemptClauses, hlast]

/-- C1 (witness): a two-attempt run against a store that returns rows only
for an empty clause set. The first attempt (classification filter `"1"`)
exhausts the doubling schedule from fetch size 2 up to the cap 800 and yields
nothing; the second attempt (no filters) wins at fetch size 2, and the
history records both executed attempts with their row counts, fetch sizes and
elapsed times. -/
theorem c1_witness :
    runAttempts (fun cl _ c => (if cl = [] then [c] else ([] : List Nat), 5))
      ⟨none, none, none, none⟩
      [⟨"original", some "1".data, none, []⟩, ⟨"x", none, none, []⟩] 1 0 =
      ⟨[2], [], [], 1,
       [⟨0, "original", some "1".data, none, [], 0, 800, 5⟩,
        ⟨1, "x", none, none, [], 1, 2, 5⟩]⟩ := by
  have h := (c1_attempt_execution
    (fun cl _ c => (if cl = [] then [c] else ([] : List Nat), 5))
    ⟨none, none, none, none⟩
    [⟨"original", some "1".data, none, []⟩, ⟨"x", none, none, []⟩] 1 0).2.1
    [⟨"original", some "1".data, none, []⟩] [] ⟨"x", none, none, []⟩
    rfl (by decide) (by decide)
  rw [h]
  decide


/-! ### C4: candidate pool and primary match -/

theorem pos_ite_one {P : Prop} [Decidable P] : (0 < if P then 1 else 0) ↔ P := by
  split <;> simp [*]

/-- C4: the candidate pool is the subset of deduplicated rows with
`token_matches > 0` and a set primary-match flag whenever that subset is
non-empty (its size recorded as `filtered_count`); otherwise the pool is all
deduplicated rows. The primary-match flag is set exactly when the primary
token or a primary synonym term occurs in the lower-cased product name, and
with no (truthy) primary token exactly when `token_matches > 0`. -/
theorem c4_candidate_pool (ctx : TokenCtx) (rows : List Row) :
    (filteredOf (dedupRows ctx rows) ≠ [] →
      candidateOf (dedupRows ctx rows) = filteredOf (dedupRows ctx rows) ∧
      filtered_countOf (dedupRows ctx rows) =
        some (filteredOf (dedupRows ctx rows)).length) ∧
    (filteredOf (dedupRows ctx rows) = [] →
      candidateOf (dedupRows ctx rows) = dedupRows ctx rows ∧
      filtered_countOf (dedupRows ctx rows) = none) ∧
    (∀ s, s ∈ filteredOf (dedupRows ctx rows) ↔
      s ∈ dedupRows ctx rows ∧ 0 < s.token_matches ∧ 0 < s.primary_match) ∧
    (∀ r : Row,
      0 < (enrich_row ctx r).primary_match ↔
        (match ctx.primary_token with
         | some p =>
           if p ≠ [] then
             p <:+: lowerStr r.productname ∨
               ∃ t ∈ ctx.primary_synonym_terms, t <:+: lowerStr r.productname
           else 0 < (enrich_row ctx r).token_matches
         | none => 0 < (enrich_row ctx r).token_matches)) := by
  refine ⟨fun h => ⟨by simp [candidateOf, h], by simp [filtered_countOf, h]⟩,
          fun h => ⟨by simp [candidateOf, h], by simp [filtered_countOf, h]⟩,
          fun s => by simp [filteredOf, and_assoc], fun r => ?_⟩
  cases hpt : ctx.primary_token with
  | none => simp [enrich_row, hpt, pos_ite_one]
  | some p =>
    by_cases hp : p ≠ [] <;> simp [enrich_row, hpt, hp, pos_ite_one]

/-- C4 (witness): a pool where one row matches the primary token and one does
not: the candidate pool is the filtered singleton and its size is recorded. -/
theorem c4_witness :
    candidateOf (dedupRows ⟨[['a','b']], [], some ['a','b'], []⟩
        [⟨1, ['a','b','c'], 3⟩, ⟨2, ['z'], 1⟩]) =
      filteredOf (dedupRows ⟨[['a','b']], [], some ['a','b'], []⟩
        [⟨1, ['a','b','c'], 3⟩, ⟨2, ['z'], 1⟩]) ∧
    filtered_countOf (dedupRows ⟨[['a','b']], [], some ['a','b'], []⟩
        [⟨1, ['a','b','c'], 3⟩, ⟨2, ['z'], 1⟩]) = some 1 := by
  have h := (c4_candidate_pool ⟨[['a','b']], [], some ['a','b'], []⟩
    [⟨1, ['a','b','c'], 3⟩, ⟨2, ['z'], 1⟩]).1 (by decide)
  exact ⟨h.1, by rw [h.2]; decide⟩

/-! ### C3: final ranking properties -/

theorem upsertById_ids_pos (m : List Scored) (r : Scored)
    (h : m.any (fun x => x.id = r.id) = true) :
    (upsertById m r).map (fun x => x.id) = m.map (fun x => x.id) := by
  rw [upsertById, if_pos h, List.map_map]
  refine List.map_congr_left fun x _ => ?_
  by_cases hx : x.id = r.id <;> simp [hx, Function.comp]

theorem upsertById_ids_neg (m : List Scored) (r : Scored)
    (h : ¬ m.any (fun x => x.id = r.id) = true) :
    (upsertById m r).map (fun x => x.id) = m.map (fun x => x.id) ++ [r.id] := by
  rw [upsertById, if_neg h]
  simp

theorem upsertById_nodup (m : List Scored) (r : Scored)
    (h : (m.map (fun x => x.id)).Nodup) :
    ((upsertById m r).map (fun x => x.id)).Nodup := by
  by_cases hany : m.any (fun x => x.id = r.id) = true
  · rw [upsertById_ids_pos m r hany]
    exact h
  · rw [upsertById_ids_neg m r hany]
    have hnm : r.id ∉ m.map (fun x => x.id) := by
      intro hmem
      obtain ⟨x, hx, he⟩ := List.mem_map.mp hmem
      refine hany ?_
      rw [List.any_eq_true]
      exact ⟨x, hx, by simp [he]⟩
    simp [List.nodup_append, h, hnm]

theorem dedupRows_nodup (ctx : TokenCtx) (rows : List Row) :
    ((dedupRows ctx rows).map (fun x => x.id)).Nodup := by
  rw [dedupRows]
  suffices hgen : ∀ (m : List Scored), (m.map (fun x => x.id)).Nodup →
      ((rows.foldl (fun m r => upsertById m (enrich_row ctx r)) m).map
        (fun x => x.id)).Nodup by
    exact hgen [] (by simp)
  induction rows with
  | nil => intro m hm; exact hm
  | cons r rest ih =>
    intro m hm
    exact ih _ (upsertById_nodup m (enrich_row ctx r) hm)

theorem mergeRows_inv (ctx : TokenCtx) :
    ∀ (frs : List Row) (st : FbState), FbInv st → FbInv (mergeRows ctx frs st) := by
  intro frs
  induction frs with
  | nil =>
    intro st h
    rw [mergeRows]
    exact h
  | cons fr rest ih =>
    intro st h
    obtain ⟨hc, hsub, hb, hemp⟩ := h
    rw [mergeRows, List.foldl_cons, ← mergeRows]
    by_cases hany : st.byId.any (fun x => x.id = fr.id) = true
    · rw [if_pos hany]
      exact ih st ⟨hc, hsub, hb, hemp⟩
    · rw [if_neg hany]
      refine ih _ ⟨?_, ?_, ?_, ?_⟩
      · have hnm : (enrich_row ctx fr).id ∉ st.cand.map (fun x => x.id) := by
          intro hmem
          obtain ⟨x, hx, he⟩ := List.mem_map.mp hmem
          have h2 := hsub x hx
          rw [he] at h2
          obtain ⟨y, hy, hye⟩ := List.mem_map.mp h2
          refine hany ?_
          rw [List.any_eq_true]
          exact ⟨y, hy, by simp [hye, enrich_row]⟩
        simp [List.nodup_append, hc, hnm]
      · intro x hx
        rw [upsertById_ids_neg _ _ hany]
        simp only [List.mem_append, List.mem_singleton]
        rcases List.mem_append.mp hx with hx | hx
        · exact Or.inl (hsub x hx)
        · simp only [List.mem_singleton] at hx
          subst hx
          exact Or.inr rfl
      · exact upsertById_nodup _ _ hb
      · intro habs
        simp at habs


theorem lexicalFallback_inv (ctx : TokenCtx) (store : TokStore) (remaining : Nat) :
    ∀ (toks : List Str) (st st' : FbState), FbInv st →
      lexicalFallback ctx store remaining toks st = .ok st' → FbInv st' := by
  intro toks
  induction toks with
  | nil =>
    intro st st' h heq
    rw [lexicalFallback] at heq
    cases heq
    exact h
  | cons t rest ih =>
    intro st st' h heq
    rw [lexicalFallback] at heq
    cases hst : store t with
    | error e =>
      rw [hst] at heq
      cases heq
    | ok frs =>
      rw [hst] at heq
      simp only [] at heq
      by_cases hfr : frs = []
      · rw [if_pos hfr] at heq
        exact ih st st' h heq
      · rw [if_neg hfr] at heq
        have hinv : FbInv (mergeRows ctx frs ⟨st.byId, st.cand, true⟩) :=
          mergeRows_inv ctx frs _ ⟨h.1, h.2.1, h.2.2.1, h.2.2.2⟩
        by_cases hrem :
            remaining ≤ (mergeRows ctx frs ⟨st.byId, st.cand, true⟩).cand.length
        · rw [if_pos hrem] at heq
          cases heq
          exact hinv
        · rw [if_neg hrem] at heq
          exact ih _ st' hinv heq

theorem ranked_take_props (l : List Scored) (limit : Nat)
    (h : (l.map (fun x => x.id)).Nodup) :
    ((l.insertionSort rankRel).take limit).length ≤ limit ∧
    (((l.insertionSort rankRel).take limit).map (fun x => x.id)).Nodup ∧
    ((l.insertionSort rankRel).take limit).Pairwise rankRel := by
  refine ⟨List.length_take_le limit _, ?_, ?_⟩
  · have hperm : ((l.insertionSort rankRel).map (fun x => x.id)).Perm
        (l.map (fun x => x.id)) := (List.perm_insertionSort rankRel l).map _
    have hnd : ((l.insertionSort rankRel).map (fun x => x.id)).Nodup :=
      hperm.nodup_iff.mpr h
    rw [List.map_take]
    exact (List.take_sublist _ _).nodup hnd
  · exact List.Pairwise.sublist (List.take_sublist _ _)
      (List.sorted_insertionSort rankRel l)

theorem candidateOf_inv (ctx : TokenCtx) (rows : List Row) :
    FbInv ⟨dedupRows ctx rows, candidateOf (dedupRows ctx rows), false⟩ := by
  have hpool := dedupRows_nodup ctx rows
  refine ⟨?_, ?_, hpool, ?_⟩
  · rw [candidateOf]
    split
    · exact ((List.filter_sublist _).map _).nodup hpool
    · exact hpool
  · intro x hx
    rw [candidateOf] at hx
    split at hx
    · exact List.mem_map_of_mem _ (List.mem_of_mem_filter hx)
    · exact List.mem_map_of_mem _ hx
  · intro hc
    rw [candidateOf] at hc
    split at hc
    · exact absurd hc (by assumption)
    · exact hc

theorem finalize_props (st : FbState) (limit : Nat) (out : List Scored)
    (hinv : FbInv st)
    (h : (if st.cand ≠ [] then Res.ok ((st.cand.insertionSort rankRel).take limit)
          else Res.ok ((st.byId.insertionSort distRel).take limit)) = .ok out) :
    out.length ≤ limit ∧ (out.map (fun r => r.id)).Nodup ∧ out.Pairwise rankRel := by
  by_cases hc : st.cand ≠ []
  · rw [if_pos hc] at h
    cases h
    exact ranked_take_props st.cand limit hinv.1
  · rw [if_neg hc] at h
    push_neg at hc
    have hbid : st.byId = [] := hinv.2.2.2 hc
    rw [hbid] at h
    cases h
    simp

/-- C3: every successful result of the ranking phase contains at most `limit`
rows, carries pairwise-distinct row identifiers (rows are deduplicated by id
before ranking), and is sorted by `token_matches` descending with vector
distance ascending among rows of equal `token_matches`. -/
theorem c3_final_ranking (ctx : TokenCtx) (store : TokStore) (rows : List Row)
    (limit fetch_limit : Nat) (out : List Scored)
    (h : semanticRank ctx store rows limit fetch_limit = .ok out) :
    out.length ≤ limit ∧
    (out.map (fun r => r.id)).Nodup ∧
    out.Pairwise (fun a b => b.token_matches < a.token_matches ∨
      (a.token_matches = b.token_matches ∧ a.distance ≤ b.distance)) := by
  simp only [semanticRank] at h
  by_cases hcond : ctx.tokens ≠ [] ∧ (candidateOf (dedupRows ctx rows)).length < limit
  · rw [if_pos hcond] at h
    cases hlf : lexicalFallback ctx store (max fetch_limit (limit * 2))
        (ctx.tokens.filter fun t => t.any isLetterChar)
        ⟨dedupRows ctx rows, candidateOf (dedupRows ctx rows), false⟩ with
    | error e =>
      rw [hlf] at h
      simp at h
    | ok st =>
      rw [hlf] at h
      exact finalize_props st limit out
        (lexicalFallback_inv ctx store _ _ _ _ (candidateOf_inv ctx rows) hlf) h
  · rw [if_neg hcond] at h
    exact finalize_props _ limit out (candidateOf_inv ctx rows) h

/-- C3 (witness): two rows with equal token score are returned in ascending
distance order, within the limit and with distinct ids. -/
theorem c3_witness :
    ([⟨2, ['b'], 1, 0, 0, 0, 0⟩, ⟨1, ['a'], 3, 0, 0, 0, 0⟩] : List Scored).length ≤ 5 ∧
    (([⟨2, ['b'], 1, 0, 0, 0, 0⟩, ⟨1, ['a'], 3, 0, 0, 0, 0⟩] : List Scored).map
      (fun r => r.id)).Nodup ∧
    ([⟨2, ['b'], 1, 0, 0, 0, 0⟩, ⟨1, ['a'], 3, 0, 0, 0, 0⟩] : List Scored).Pairwise
      (fun a b => b.token_matches < a.token_matches ∨
        (a.token_matches = b.token_matches ∧ a.distance ≤ b.distance)) :=
  c3_final_ranking ⟨[], [], none, []⟩ (fun _ => .error "x")
    [⟨1, ['a'], 3⟩, ⟨2, ['b'], 1⟩] 5 10
    [⟨2, ['b'], 1, 0, 0, 0, 0⟩, ⟨1, ['a'], 3, 0, 0, 0, 0⟩] (by decide)

/-! ### C8: store failure inside the lexical-fallback loop -/

/-- C8 (counterexample): with two alphabetic tokens, a store whose query for
the first token raises while the second token's query would return a row, the
semantic ranking phase aborts with the store error instead of skipping the
failing token: the loop body has no exception handling. -/
theorem c8_counterexample :
    semanticRank ⟨[['a', 'b'], ['c', 'd']], [], none, []⟩
      (fun t => if t = ['a', 'b'] then .error "boom" else .ok [⟨7, ['x'], 1⟩])
      [] 5 10 = .error "boom" ∧
    (fun t => if t = ['a', 'b'] then Res.error "boom"
      else Res.ok [(⟨7, ['x'], 1⟩ : Row)]) ['c', 'd'] = .ok [⟨7, ['x'], 1⟩] := by
  decide

/-- C8 (amended): a store error for one token of the lexical-fallback loop is
not caught: the loop returns the error immediately, without trying subsequent
tokens, and the ranking phase (hence the request) surfaces that error rather
than a result. -/
theorem c8_store_error_aborts :
    (∀ (ctx : TokenCtx) (store : TokStore) (remaining : Nat) (t : Str)
       (rest : List Str) (st : FbState) (e : String),
      store t = .error e →
      lexicalFallback ctx store remaining (t :: rest) st = .error e) ∧
    (∀ (ctx : TokenCtx) (store : TokStore) (rows : List Row) (limit fl : Nat)
       (t : Str) (rest : List Str) (e : String),
      ctx.tokens ≠ [] →
      (candidateOf (dedupRows ctx rows)).length < limit →
      ctx.tokens.filter (fun x => x.any isLetterChar) = t :: rest →
      store t = .error e →
      semanticRank ctx store rows limit fl = .error e) := by
  have hloop : ∀ (ctx : TokenCtx) (store : TokStore) (remaining : Nat) (t : Str)
      (rest : List Str) (st : FbState) (e : String), store t = .error e →
      lexicalFallback ctx store remaining (t :: rest) st = .error e := by
    intro ctx store remaining t rest st e h
    rw [lexicalFallback, h]
  refine ⟨hloop, ?_⟩
  intro ctx store rows limit fl t rest e h1 h2 h3 h4
  simp only [semanticRank]
  rw [if_pos ⟨h1, h2⟩, h3, hloop ctx store _ t rest _ e h4]

/-- C8 (amended, witness): the loop applied to a single failing token. -/
theorem c8_witness :
    lexicalFallback ⟨[['a', 'b']], [], none, []⟩ (fun _ => .error "boom") 10
      [['a', 'b']] ⟨[], [], false⟩ = .error "boom" :=
  c8_store_error_aborts.1 ⟨[['a', 'b']], [], none, []⟩ (fun _ => .error "boom") 10
    ['a', 'b'] [] ⟨[], [], false⟩ "boom" rfl

end Gisp
